import Mathlib

/-!
Verification development for the polymarket-client repository.

Part 1 embeds the trade-reconciliation algorithm
(`PolymarketClient.reconcile_trades` in `client.py`) together with the
numeric behaviour it relies on: Python `float(...)` parsing of a decimal
string, IEEE-754 binary64 addition, and `str(...)` of a float (CPython's
shortest round-trip repr).  All float values are represented by the exact
rational they denote; rounding is modelled explicitly.

Part 2 embeds the WebSocket client state machine and the per-channel
message-dispatch logic of `websocket.py`.
-/

namespace Polymarket

/-! ### IEEE-754 binary64 arithmetic on exact rationals

Python's `float` is an IEEE-754 binary64.  Every finite double is an exact
rational, and double arithmetic is exact rational arithmetic followed by
rounding to 53 significant bits, round-to-nearest ties-to-even.  Exact
rationals are represented as raw integer fractions `num / den`; every
constructor below produces a positive denominator, and no normalization is
ever needed (equality of values is compared by cross-multiplication).  The
rounding model covers positive normal-range magnitudes (the values
reachable from trade sizes); subnormal underflow and overflow to infinity
are outside the modelled range.  Fuel arguments bound the normalization
loops structurally; fuel 1200 covers the whole binary64 exponent range. -/

/-- An exact rational as a raw integer fraction; the denominator is
positive for every value built below. -/
structure Frac where
  num : ℤ
  den : ℤ
deriving DecidableEq

/-- The rational `n / 1`. -/
def fofInt (n : ℤ) : Frac := ⟨n, 1⟩

/-- Exact sum of two fractions. -/
def fadd (a b : Frac) : Frac := ⟨a.num * b.den + b.num * a.den, a.den * b.den⟩

/-- Negation of a fraction. -/
def fneg (a : Frac) : Frac := ⟨-a.num, a.den⟩

/-- Value equality of fractions by cross-multiplication (denominators are
positive). -/
def feq (a b : Frac) : Bool := a.num * b.den == b.num * a.den

/-- Multiply a fraction by `base ^ e` for an integer exponent `e`,
keeping the denominator positive. -/
def fmulPow (base : ℤ) (a : Frac) (e : ℤ) : Frac :=
  if 0 ≤ e then ⟨a.num * base ^ e.toNat, a.den⟩
  else ⟨a.num, a.den * base ^ (-e).toNat⟩

/-- Round a fraction (with positive denominator) to the nearest integer,
ties to even. -/
def rne (x : Frac) : ℤ :=
  let f := x.num.fdiv x.den
  let rnum := x.num - f * x.den
  if 2 * rnum < x.den then f
  else if x.den < 2 * rnum then f + 1
  else if f % 2 = 0 then f else f + 1

/-- Halve until the value is below 2, tracking the binary exponent. -/
def binadeDown : ℕ → Frac → ℤ → Frac × ℤ
  | 0, q, e => (q, e)
  | n + 1, q, e =>
    if q.num < 2 * q.den then (q, e)
    else binadeDown n ⟨q.num, q.den * 2⟩ (e + 1)

/-- Double until the value reaches 1, tracking the binary exponent. -/
def binadeUp : ℕ → Frac → ℤ → Frac × ℤ
  | 0, q, e => (q, e)
  | n + 1, q, e =>
    if q.den ≤ q.num then (q, e)
    else binadeUp n ⟨q.num * 2, q.den⟩ (e - 1)

/-- Write a positive fraction as `m * 2^e` with `1 ≤ m < 2`. -/
def binade (q : Frac) : Frac × ℤ :=
  if q.den ≤ q.num then binadeDown 1200 q 0 else binadeUp 1200 q 0

/-- Nearest binary64 value to a positive fraction, as an exact fraction:
scale into the binade, keep 53 significand bits rounding ties to even. -/
def roundDoublePos (q : Frac) : Frac :=
  let p := binade q
  let d := rne ⟨p.1.num * 2 ^ 52, p.1.den⟩
  fmulPow 2 ⟨d, 2 ^ 52⟩ p.2

/-- Nearest binary64 value to a fraction (round-to-nearest, ties to
even), as an exact fraction. -/
def roundDouble (q : Frac) : Frac :=
  if q.num = 0 then fofInt 0
  else if q.num < 0 then fneg (roundDoublePos (fneg q))
  else roundDoublePos q

/-- Binary64 addition: exact sum, then rounding.  Models Python `+` on
floats. -/
def pyAdd (a b : Frac) : Frac := roundDouble (fadd a b)

/-! ### Python `float(string)` on decimal numerals

`float()` parses a decimal numeral (optional sign, digits with an optional
point, optional decimal exponent) and correctly rounds it to binary64.
The special spellings `inf`/`nan`, hexadecimal floats and underscore
digit separators are outside the trade-size domain and are not modelled. -/

/-- Value of a decimal digit character. -/
def digitVal (c : Char) : Option ℕ :=
  if c.isDigit then some (c.toNat - 48) else none

/-- Fold a digit list into a natural number; fails on a non-digit. -/
def parseDigitsAux : List Char → ℕ → Option ℕ
  | [], acc => some acc
  | c :: cs, acc =>
    match digitVal c with
    | some d => parseDigitsAux cs (acc * 10 + d)
    | none => none

/-- Split a character list at the first occurrence of a separator
satisfying `p`, keeping both sides. -/
def breakAtSep (p : Char → Bool) : List Char → List Char × Option (List Char)
  | [] => ([], none)
  | c :: cs =>
    if p c then ([], some cs)
    else
      let r := breakAtSep p cs
      (c :: r.1, r.2)

/-- Parse the mantissa part `digits[.digits]` / `.digits` / `digits.`
of a decimal numeral into an exact fraction. -/
def parseMantissa (cs : List Char) : Option Frac :=
  let r := breakAtSep (· = '.') cs
  match r.2 with
  | none =>
    match r.1 with
    | [] => none
    | intPart =>
      match parseDigitsAux intPart 0 with
      | some n => some (fofInt n)
      | none => none
  | some fracPart =>
    if r.1 = [] ∧ fracPart = [] then none
    else
      match parseDigitsAux r.1 0, parseDigitsAux fracPart 0 with
      | some ip, some fp =>
        some ⟨(ip : ℤ) * 10 ^ fracPart.length + fp, 10 ^ fracPart.length⟩
      | _, _ => none

/-- Parse an optionally signed decimal integer (the exponent part). -/
def parseSignedInt (cs : List Char) : Option ℤ :=
  match cs with
  | '-' :: rest =>
    match rest with
    | [] => none
    | _ =>
      match parseDigitsAux rest 0 with
      | some n => some (-(n : ℤ))
      | none => none
  | '+' :: rest =>
    match rest with
    | [] => none
    | _ =>
      match parseDigitsAux rest 0 with
      | some n => some (n : ℤ)
      | none => none
  | [] => none
  | _ =>
    match parseDigitsAux cs 0 with
    | some n => some (n : ℤ)
    | none => none

/-- Exact value of a decimal numeral (after sign stripping): mantissa
with optional `e`/`E` exponent. -/
def parseUnsigned (cs : List Char) : Option Frac :=
  let r := breakAtSep (fun c => c = 'e' ∨ c = 'E') cs
  match r.2 with
  | none => parseMantissa r.1
  | some expPart =>
    match parseMantissa r.1, parseSignedInt expPart with
    | some m, some e => some (fmulPow 10 m e)
    | _, _ => none

/-- ASCII whitespace accepted around a numeral. -/
def isSpaceChar (c : Char) : Bool :=
  c = ' ' ∨ c = '\t' ∨ c = '\n' ∨ c = '\r' ∨ c = '\x0b' ∨ c = '\x0c'

/-- Strip leading and trailing whitespace from a character list. -/
def trimChars (l : List Char) : List Char :=
  ((l.dropWhile isSpaceChar).reverse.dropWhile isSpaceChar).reverse

/-- Exact value of a decimal numeral string, models the grammar accepted
by Python `float()` on finite decimal input (surrounding whitespace
stripped, optional sign). -/
def parseDecimal (s : String) : Option Frac :=
  match trimChars s.toList with
  | '-' :: rest => (parseUnsigned rest).map fneg
  | '+' :: rest => parseUnsigned rest
  | cs => parseUnsigned cs

/-- Python `float(s)`: parse the decimal numeral and correctly round it
to the nearest binary64, returned as an exact fraction.  `none` models
the `ValueError` raised on unparsable input. -/
def py_float (s : String) : Option Frac :=
  (parseDecimal s).map roundDouble

/-! ### Python `str(float)`: CPython's shortest round-trip repr

`str` of a float produces the shortest decimal numeral (1 to 17
significant digits, correctly rounded) that parses back to the same
double, in fixed notation when the decimal exponent lies in `[-4, 16)`
and scientific notation otherwise. -/

/-- Divide by 10 until below 10, tracking the decimal exponent. -/
def decadeDown : ℕ → Frac → ℤ → Frac × ℤ
  | 0, q, e => (q, e)
  | n + 1, q, e =>
    if q.num < 10 * q.den then (q, e)
    else decadeDown n ⟨q.num, q.den * 10⟩ (e + 1)

/-- Multiply by 10 until at least 1, tracking the decimal exponent. -/
def decadeUp : ℕ → Frac → ℤ → Frac × ℤ
  | 0, q, e => (q, e)
  | n + 1, q, e =>
    if q.den ≤ q.num then (q, e)
    else decadeUp n ⟨q.num * 10, q.den⟩ (e - 1)

/-- Write a positive fraction as `m * 10^e` with `1 ≤ m < 10`. -/
def decade (q : Frac) : Frac × ℤ :=
  if q.den ≤ q.num then decadeDown 400 q 0 else decadeUp 400 q 0

/-- Correctly rounded `k`-significant-digit decimal approximation of a
positive fraction: the digit block (an integer in `[10^(k-1), 10^k)`) and
the decimal exponent of its leading digit. -/
def sigDigits (q : Frac) (k : ℕ) : ℤ × ℤ :=
  let p := decade q
  let d := rne ⟨p.1.num * 10 ^ (k - 1), p.1.den⟩
  if d = (10 : ℤ) ^ k then ((10 : ℤ) ^ (k - 1), p.2 + 1) else (d, p.2)

/-- A string of `n` zero characters. -/
def zeros (n : ℕ) : String := String.mk (List.replicate n '0')

/-- Render a digit block with its decimal exponent the way CPython's float
repr does: fixed notation for exponents in `[-4, 16)`, otherwise
scientific with a sign and two-digit minimum exponent field. -/
def formatDigits (d : ℤ) (e : ℤ) (k : ℕ) : String :=
  let s := toString d.toNat
  if -4 ≤ e ∧ e < 16 then
    if (k : ℤ) - 1 ≤ e then s ++ zeros (e - ((k : ℤ) - 1)).toNat ++ ".0"
    else if 0 ≤ e then
      let cut := e.toNat + 1
      s.take cut ++ "." ++ s.drop cut
    else "0." ++ zeros (-(e + 1)).toNat ++ s
  else
    let head := s.take 1
    let tail := s.drop 1
    let mant := if k = 1 then head else head ++ "." ++ tail
    let esign := if e < 0 then "-" else "+"
    let eabs := toString e.natAbs
    let epad := if e.natAbs < 10 then "0" ++ eabs else eabs
    mant ++ "e" ++ esign ++ epad

/-- Search for the least digit count `k` whose correctly rounded
`k`-digit decimal parses back to the double `q`; 17 digits always
round-trip, so the fuel only bounds the search structurally. -/
def reprSearch (q : Frac) : ℕ → ℕ → String
  | _, 0 =>
    let p := sigDigits q 17
    formatDigits p.1 p.2 17
  | k, fuel + 1 =>
    let p := sigDigits q k
    if feq (roundDouble (fmulPow 10 (fofInt p.1) (p.2 - ((k : ℤ) - 1)))) q then
      formatDigits p.1 p.2 k
    else reprSearch q (k + 1) fuel

/-- Python `str(f)` for a finite float `f` given as its exact fraction
value: shortest round-trip repr. -/
def pyStr (q : Frac) : String :=
  if q.num = 0 then "0.0"
  else if q.num < 0 then "-" ++ reprSearch (fneg q) 1 17
  else reprSearch q 1 17

/-! ### Data model: `MakerOrder` and `Trade` (`types.py`)

Field names and types follow the dataclasses in `types.py`: every field is
a string except `bucket_index` (a Python `int`, modelled as `ℤ`) and
`maker_orders` (a list). -/

/-- Maker order information within a trade (`types.py`, `MakerOrder`). -/
structure MakerOrder where
  order_id : String
  maker_address : String
  owner : String
  matched_amount : String
  fee_rate_bps : String
  price : String
  asset_id : String
  outcome : String
  side : String
deriving DecidableEq

/-- Trade record from the CLOB API (`types.py`, `Trade`). -/
structure Trade where
  id : String
  taker_order_id : String
  market : String
  asset_id : String
  side : String
  size : String
  fee_rate_bps : String
  price : String
  status : String
  match_time : String
  last_update : String
  outcome : String
  maker_address : String
  owner : String
  transaction_hash : String
  bucket_index : ℤ
  maker_orders : List MakerOrder
  type : String
deriving DecidableEq

/-! ### Trade reconciliation (`client.py`, `reconcile_trades`) -/

/-- The composite grouping key `(trade.taker_order_id, trade.match_time)`. -/
def tradeKey (t : Trade) : String × String := (t.taker_order_id, t.match_time)

/-- One step of the grouping loop: append the trade to its group in the
insertion-ordered association list, adding a fresh group at the end when
the key is new.  Models `trade_groups[key].append(trade)` on a Python
dict (insertion-ordered keys). -/
def insertTrade : List ((String × String) × List Trade) → Trade →
    List ((String × String) × List Trade)
  | [], t => [(tradeKey t, [t])]
  | (k, g) :: rest, t =>
    if k = tradeKey t then (k, g ++ [t]) :: rest
    else (k, g) :: insertTrade rest t

/-- Group trades by `(taker_order_id, match_time)`, keys in first-occurrence
order, members in input order. -/
def groupTrades (trades : List Trade) : List ((String × String) × List Trade) :=
  trades.foldl insertTrade []

/-- Comparison key of `sorted(group_trades, key=lambda t: t.bucket_index)`. -/
def bucketLE (a b : Trade) : Prop := a.bucket_index ≤ b.bucket_index

instance : DecidableRel bucketLE := fun a b => Int.decLe a.bucket_index b.bucket_index

instance : IsTotal Trade bucketLE := ⟨fun a b => Int.le_total a.bucket_index b.bucket_index⟩

instance : IsTrans Trade bucketLE := ⟨fun _ _ _ => Int.le_trans⟩

/-- Lexicographic code-point comparison of character lists: Python's `<`
on strings. -/
def charListLt : List Char → List Char → Bool
  | [], [] => false
  | [], _ :: _ => true
  | _ :: _, [] => false
  | a :: as, b :: bs =>
    if a.toNat < b.toNat then true
    else if b.toNat < a.toNat then false
    else charListLt as bs

/-- Python `a < b` on strings. -/
def strLt (a b : String) : Bool := charListLt a.toList b.toList

/-- One step of Python `max(...)` over strings: keep the current best
unless the next item is strictly greater. -/
def pyMax (a b : String) : String := if strLt a b then b else a

/-- Error raised when a size field cannot be parsed as a decimal number.
The source's `float(trade.size)` raises the builtin `ValueError`; the
spec's error taxonomy names this case `MalformedSizeError`. -/
structure MalformedSizeError where
  size : String
deriving DecidableEq

/-- Parse the size field of each trade in order, failing at the first
unparsable one.  Models the generator `float(trade.size) for trade in
sorted_trades`, which raises at the first malformed size. -/
def parseSizes : List Trade → Except MalformedSizeError (List Frac)
  | [] => .ok []
  | t :: ts =>
    match py_float t.size with
    | none => .error ⟨t.size⟩
    | some q => (parseSizes ts).map (q :: ·)

/-- Merge a multi-member group: sort ascending by `bucket_index` (stable,
like Python `sorted`), take the first as base, concatenate maker orders in
sorted order, sum the sizes as floats starting from `0` (Python `sum`),
take the maximum `last_update`, reset `bucket_index` to `0`.  Groups are
never empty; the empty case is unreachable. -/
def mergeGroup (g : List Trade) : Except MalformedSizeError Trade :=
  match List.insertionSort bucketLE g with
  | [] => .error ⟨""⟩
  | base :: rest =>
    match parseSizes (base :: rest) with
    | .error e => .error e
    | .ok sizes =>
      .ok
        { id := base.id
          taker_order_id := base.taker_order_id
          market := base.market
          asset_id := base.asset_id
          side := base.side
          size := pyStr (sizes.foldl pyAdd (fofInt 0))
          fee_rate_bps := base.fee_rate_bps
          price := base.price
          status := base.status
          match_time := base.match_time
          last_update := (rest.map (·.last_update)).foldl pyMax base.last_update
          outcome := base.outcome
          maker_address := base.maker_address
          owner := base.owner
          transaction_hash := base.transaction_hash
          bucket_index := 0
          maker_orders := (base :: rest).foldl (fun acc t => acc ++ t.maker_orders) []
          type := base.type }

/-- The record emitted for one group: `if len(group_trades) == 1` the
single member passes through unchanged, otherwise the group is merged. -/
def groupResult (g : List Trade) : Except MalformedSizeError Trade :=
  match g with
  | [t] => .ok t
  | g => mergeGroup g

/-- Process the groups in key order; the first parse failure aborts the
whole operation with no partial output. -/
def reconcileGroups : List ((String × String) × List Trade) →
    Except MalformedSizeError (List Trade)
  | [] => .ok []
  | (_, g) :: rest =>
    match groupResult g with
    | .error e => .error e
    | .ok r => (reconcileGroups rest).map (r :: ·)

/-- Embeds `PolymarketClient.reconcile_trades` (`client.py`): group by
`(taker_order_id, match_time)` and merge each multi-member group.  The
source's early `return []` on empty input coincides with the general
path. -/
def reconcile_trades (trades : List Trade) : Except MalformedSizeError (List Trade) :=
  reconcileGroups (groupTrades trades)

/-! ### WebSocket client (`websocket.py`)

The client's mutable state is the pair of socket handles `_market_ws` /
`_user_ws` (here `Option Unit`: the handle's identity is irrelevant, only
whether one is held), the credential triple and the `_running` flag.  The
callback references and base URL are immutable after construction; the
ping-thread table is touched only from background threads and carries no
information used by the claims. -/

/-- Credential triple (`websocket.py`, `WebSocketAuth`); never mutated
after construction. -/
structure WebSocketAuth where
  api_key : String
  secret : String
  passphrase : String
deriving DecidableEq

/-- The exception type raised by the client (`PolymarketClientError`),
carrying its message.  The spec taxonomy names the two connect-time cases
`AlreadyConnected` and `MissingCredentials`; the source distinguishes them
by message text. -/
structure PolymarketClientError where
  msg : String
deriving DecidableEq

/-- Channel name constant `MARKET_CHANNEL`. -/
def MARKET_CHANNEL : String := "market"

/-- Channel name constant `USER_CHANNEL`. -/
def USER_CHANNEL : String := "user"

/-- Synchronous state of `PolymarketWebSocketClient`. -/
structure WSClientState where
  auth : Option WebSocketAuth
  market_ws : Option Unit
  user_ws : Option Unit
  running : Bool
deriving DecidableEq

/-- Models `connect_market_channel`: fails when a market handle is already held,
otherwise stores the fresh handle and sets `_running`.  The subscription
handshake and thread start happen on the new connection and do not touch
any other field.  An error is raised before any state is mutated. -/
def connect_market_channel (c : WSClientState) (asset_ids : List String) :
    Except PolymarketClientError WSClientState :=
  if c.market_ws.isSome then
    .error ⟨"Market channel is already connected. Close it first."⟩
  else .ok { c with market_ws := some (), running := true }

/-- Models `connect_user_channel`: fails when a user handle is already held, then
when no credentials were supplied at construction; otherwise stores the
fresh handle and sets `_running`. -/
def connect_user_channel (c : WSClientState) (markets : Option (List String)) :
    Except PolymarketClientError WSClientState :=
  if c.user_ws.isSome then
    .error ⟨"User channel is already connected. Close it first."⟩
  else
    match c.auth with
    | none => .error ⟨"Authentication is required for USER channel. Provide auth parameter."⟩
    | some _ => .ok { c with user_ws := some (), running := true }

/-- Models `close_market_channel`: release the market handle if held, otherwise
do nothing. -/
def close_market_channel (c : WSClientState) : WSClientState :=
  match c.market_ws with
  | some _ => { c with market_ws := none }
  | none => c

/-- Models `close_user_channel`: release the user handle if held, otherwise do
nothing. -/
def close_user_channel (c : WSClientState) : WSClientState :=
  match c.user_ws with
  | some _ => { c with user_ws := none }
  | none => c

/-- Models `close_all`: close both channels, then clear `_running`. -/
def close_all (c : WSClientState) : WSClientState :=
  { close_user_channel (close_market_channel c) with running := false }

/-- Models `is_market_connected`: whether a market handle is held. -/
def is_market_connected (c : WSClientState) : Bool := c.market_ws.isSome

/-- Models `is_user_connected`: whether a user handle is held. -/
def is_user_connected (c : WSClientState) : Bool := c.user_ws.isSome

/-! ### Message dispatch (`on_message` in both connect functions)

A received text frame is parsed as JSON (`json.loads`); the parse result
is modelled as `Option Json`, `none` standing for `json.JSONDecodeError`.
The typed message parsers (`WebSocketBookMessage.from_payload` and
friends) are the spec's external collaborator "message-schema parsers";
they appear as decoder parameters returning `Option`, `none` standing for
any exception raised while decoding.  A dispatch run is summarised by the
ordered list of deliveries it performs; console prints are recorded as
bare `echo` marks (their text is console output, not program state). -/

/-- A JSON value as produced by `json.loads`. -/
inductive Json where
  | null
  | bool (b : Bool)
  | num (q : ℚ)
  | str (s : String)
  | arr (elems : List Json)
  | obj (fields : List (String × Json))

/-- Models `data.get(key)` on a JSON object: first binding of the key, `none`
otherwise (also on non-objects, which dispatch never queries). -/
def Json.getField : Json → String → Option Json
  | .obj fields, k => fields.lookup k
  | _, _ => none

/-- Models `data.get("event_type", "")`. -/
def eventTypeOf (data : Json) : Json :=
  (data.getField "event_type").getD (.str "")

/-- Python `data.get("event_type", "") == name`: true only when the field
is the given string (comparison of a non-string to a string is `False`). -/
def isEventType (data : Json) (name : String) : Bool :=
  match eventTypeOf data with
  | .str s => s = name
  | _ => false

/-- Which callbacks were registered at construction, and the verbose
flag. -/
structure CbCfg where
  has_message_callback : Bool
  has_market_callback : Bool
  has_user_callback : Bool
  verbose : Bool
deriving DecidableEq

/-- One observable delivery performed by a dispatch run: a typed-callback
invocation, a generic `(channel, raw payload)` callback invocation, or a
console echo line. -/
inductive Delivery (α : Type) where
  | typed (m : α)
  | generic (channel : String) (payload : Json)
  | echo

/-- The shared shape of the four market branches and two user branches:
on decode success, typed callback if registered, else generic callback if
registered, else verbose echo; on decode failure, a verbose diagnostic
and then the raw payload to the generic callback if registered. -/
def typedBranch {α : Type} (cfg : CbCfg) (hasTyped : Bool) (channel : String)
    (data : Json) (decoded : Option α) : List (Delivery α) :=
  match decoded with
  | some m =>
    if hasTyped then [.typed m]
    else if cfg.has_message_callback then [.generic channel data]
    else if cfg.verbose then [.echo]
    else []
  | none =>
    (if cfg.verbose then [.echo] else []) ++
      (if cfg.has_message_callback then [.generic channel data] else [])

/-- The unrecognized-discriminator and non-dict branches: raw payload to
the generic callback if registered, else verbose echo. -/
def rawBranch {α : Type} (cfg : CbCfg) (channel : String) (data : Json) :
    List (Delivery α) :=
  if cfg.has_message_callback then [.generic channel data]
  else if cfg.verbose then [.echo]
  else []

/-- The market channel's typed decoders (`from_payload` of the four
market message classes), abstracted as fallible functions. -/
structure MarketDecoders (α : Type) where
  book : Json → Option α
  price_change : Json → Option α
  tick_size_change : Json → Option α
  last_trade_price : Json → Option α

/-- The user channel's typed decoders. -/
structure UserDecoders (α : Type) where
  trade : Json → Option α
  order : Json → Option α

/-- Models `on_message` of `connect_market_channel`: deliveries performed for one
received frame, given its JSON parse result.  Total by construction — the
source swallows `json.JSONDecodeError` and catches every decoder
exception, so dispatch never raises. -/
def marketOnMessage {α : Type} (cfg : CbCfg) (dec : MarketDecoders α)
    (parsed : Option Json) : List (Delivery α) :=
  match parsed with
  | none => if cfg.verbose then [.echo] else []
  | some data =>
    match data with
    | .obj _ =>
      if isEventType data "book" then
        typedBranch cfg cfg.has_market_callback MARKET_CHANNEL data (dec.book data)
      else if isEventType data "price_change" then
        typedBranch cfg cfg.has_market_callback MARKET_CHANNEL data (dec.price_change data)
      else if isEventType data "tick_size_change" then
        typedBranch cfg cfg.has_market_callback MARKET_CHANNEL data (dec.tick_size_change data)
      else if isEventType data "last_trade_price" then
        typedBranch cfg cfg.has_market_callback MARKET_CHANNEL data (dec.last_trade_price data)
      else rawBranch cfg MARKET_CHANNEL data
    | _ => rawBranch cfg MARKET_CHANNEL data

/-- Models `on_message` of `connect_user_channel`. -/
def userOnMessage {α : Type} (cfg : CbCfg) (dec : UserDecoders α)
    (parsed : Option Json) : List (Delivery α) :=
  match parsed with
  | none => if cfg.verbose then [.echo] else []
  | some data =>
    match data with
    | .obj _ =>
      if isEventType data "trade" then
        typedBranch cfg cfg.has_user_callback USER_CHANNEL data (dec.trade data)
      else if isEventType data "order" then
        typedBranch cfg cfg.has_user_callback USER_CHANNEL data (dec.order data)
      else rawBranch cfg USER_CHANNEL data
    | _ => rawBranch cfg USER_CHANNEL data

/-! ## Claims about the WebSocket client state machine -/

/-- C8: `connect_market_channel` on an already-connected market channel
fails with the already-connected error; `connect_user_channel` fails with
the already-connected error when the user channel is connected, and with
the missing-credentials error when no `WebSocketAuth` was supplied at
construction.  In each case the call returns the error and no successor
state: nothing is mutated and no connection is opened (the source raises
before constructing the `WebSocketApp`). -/
theorem connect_precondition_errors (c : WSClientState) (assets : List String)
    (mkts : Option (List String)) :
    (is_market_connected c = true →
      connect_market_channel c assets =
        .error ⟨"Market channel is already connected. Close it first."⟩) ∧
    (is_user_connected c = true →
      connect_user_channel c mkts =
        .error ⟨"User channel is already connected. Close it first."⟩) ∧
    (is_user_connected c = false → c.auth = none →
      connect_user_channel c mkts =
        .error ⟨"Authentication is required for USER channel. Provide auth parameter."⟩) := by
  refine ⟨fun hm => ?_, fun hu => ?_, fun hu ha => ?_⟩
  · have h : c.market_ws.isSome = true := hm
    simp [connect_market_channel, h]
  · have h : c.user_ws.isSome = true := hu
    simp [connect_user_channel, h]
  · have h : c.user_ws.isSome = false := hu
    simp [connect_user_channel, h, ha]

/-- C8 witness: the three error cases at concrete states. -/
theorem connect_precondition_errors_witness :
    (connect_market_channel ⟨none, some (), some (), true⟩ [] =
      .error ⟨"Market channel is already connected. Close it first."⟩) ∧
    (connect_user_channel ⟨none, some (), some (), true⟩ none =
      .error ⟨"User channel is already connected. Close it first."⟩) ∧
    (connect_user_channel ⟨none, none, none, false⟩ none =
      .error ⟨"Authentication is required for USER channel. Provide auth parameter."⟩) :=
  ⟨(connect_precondition_errors ⟨none, some (), some (), true⟩ [] none).1 rfl,
   (connect_precondition_errors ⟨none, some (), some (), true⟩ [] none).2.1 rfl,
   (connect_precondition_errors ⟨none, none, none, false⟩ [] none).2.2 rfl rfl⟩

/-- C9: the three close operations are idempotent (closing an
already-closed channel is a no-op on that channel), and closing one
channel leaves the other channel's connected state untouched: after
`close_market_channel`, `is_user_connected` is unchanged, and
symmetrically. -/
theorem close_idempotent_and_channels_independent (c : WSClientState) :
    close_market_channel (close_market_channel c) = close_market_channel c ∧
    close_user_channel (close_user_channel c) = close_user_channel c ∧
    close_all (close_all c) = close_all c ∧
    is_user_connected (close_market_channel c) = is_user_connected c ∧
    is_market_connected (close_user_channel c) = is_market_connected c := by
  obtain ⟨a, m, u, r⟩ := c
  cases m <;> cases u <;>
    simp [close_market_channel, close_user_channel, close_all,
      is_user_connected, is_market_connected]

/-! ## Claims about message dispatch -/

/-- The decoder the market dispatcher applies for a given recognized
discriminator. -/
def marketDecoderFor {α : Type} (dec : MarketDecoders α) : String → Json → Option α
  | "book" => dec.book
  | "price_change" => dec.price_change
  | "tick_size_change" => dec.tick_size_change
  | "last_trade_price" => dec.last_trade_price
  | _ => fun _ => none

/-- The decoder the user dispatcher applies for a given recognized
discriminator. -/
def userDecoderFor {α : Type} (dec : UserDecoders α) : String → Json → Option α
  | "trade" => dec.trade
  | "order" => dec.order
  | _ => fun _ => none

/-- A message matches at most one discriminator: if its `event_type` is
`et`, the test against any other name is false. -/
theorem isEventType_of_ne (data : Json) (et n : String)
    (h : isEventType data et = true) (hne : n ≠ et) :
    isEventType data n = false := by
  unfold isEventType at h ⊢
  cases hev : eventTypeOf data <;> rw [hev] at h <;> simp_all
  exact fun a => hne a.symm

/-- Sample decoders for concrete dispatch runs: accept every payload. -/
def unitMarketDecoders : MarketDecoders Unit :=
  ⟨fun _ => some (), fun _ => some (), fun _ => some (), fun _ => some ()⟩

/-- Sample user-channel decoders accepting every payload. -/
def unitUserDecoders : UserDecoders Unit :=
  ⟨fun _ => some (), fun _ => some ()⟩

/-- C7: dispatch reads the `event_type` discriminator to select the
decoding schema; a dict message whose discriminator is outside the
channel's recognized set (`book`, `price_change`, `tick_size_change`,
`last_trade_price` for market; `trade`, `order` for user) is routed to
the generic-callback-else-verbose-echo path, never to a typed callback,
and dispatch is a total function (never raises). -/
theorem unknown_discriminator_to_generic {α : Type} (cfg : CbCfg)
    (mdec : MarketDecoders α) (udec : UserDecoders α)
    (fields : List (String × Json))
    (hm : ∀ n ∈ ["book", "price_change", "tick_size_change", "last_trade_price"],
      isEventType (.obj fields) n = false)
    (hu : ∀ n ∈ ["trade", "order"], isEventType (.obj fields) n = false) :
    marketOnMessage cfg mdec (some (.obj fields)) =
      (if cfg.has_message_callback then [.generic MARKET_CHANNEL (.obj fields)]
       else if cfg.verbose then [.echo] else []) ∧
    userOnMessage cfg udec (some (.obj fields)) =
      (if cfg.has_message_callback then [.generic USER_CHANNEL (.obj fields)]
       else if cfg.verbose then [.echo] else []) ∧
    (∀ m : α, Delivery.typed m ∉ marketOnMessage cfg mdec (some (.obj fields))) ∧
    (∀ m : α, Delivery.typed m ∉ userOnMessage cfg udec (some (.obj fields))) := by
  have hb := hm "book" (by simp)
  have hp := hm "price_change" (by simp)
  have ht := hm "tick_size_change" (by simp)
  have hl := hm "last_trade_price" (by simp)
  have htr := hu "trade" (by simp)
  have ho := hu "order" (by simp)
  have e1 : marketOnMessage cfg mdec (some (.obj fields)) =
      rawBranch cfg MARKET_CHANNEL (.obj fields) := by
    simp [marketOnMessage, hb, hp, ht, hl]
  have e2 : userOnMessage cfg udec (some (.obj fields)) =
      rawBranch cfg USER_CHANNEL (.obj fields) := by
    simp [userOnMessage, htr, ho]
  have e3 : ∀ (ch : String), rawBranch (α := α) cfg ch (.obj fields) =
      (if cfg.has_message_callback then [.generic ch (.obj fields)]
       else if cfg.verbose then [.echo] else []) := fun _ => rfl
  refine ⟨e1.trans (e3 _), e2.trans (e3 _), ?_, ?_⟩
  · intro m
    rw [e1.trans (e3 _)]
    split
    · simp
    · split <;> simp
  · intro m
    rw [e2.trans (e3 _)]
    split
    · simp
    · split <;> simp

/-- C7 witness: the discriminator `unknown_xyz` with both callbacks
registered goes to the generic callback on both channels and reaches no
typed callback. -/
theorem unknown_discriminator_to_generic_witness :
    isEventType (.obj [("event_type", Json.str "unknown_xyz")]) "book" = false ∧
    isEventType (.obj [("event_type", Json.str "unknown_xyz")]) "price_change" = false ∧
    isEventType (.obj [("event_type", Json.str "unknown_xyz")]) "tick_size_change" = false ∧
    isEventType (.obj [("event_type", Json.str "unknown_xyz")]) "last_trade_price" = false ∧
    isEventType (.obj [("event_type", Json.str "unknown_xyz")]) "trade" = false ∧
    isEventType (.obj [("event_type", Json.str "unknown_xyz")]) "order" = false ∧
    marketOnMessage ⟨true, true, true, true⟩ unitMarketDecoders
        (some (.obj [("event_type", Json.str "unknown_xyz")])) =
      [.generic MARKET_CHANNEL (.obj [("event_type", Json.str "unknown_xyz")])] ∧
    userOnMessage ⟨true, true, true, true⟩ unitUserDecoders
        (some (.obj [("event_type", Json.str "unknown_xyz")])) =
      [.generic USER_CHANNEL (.obj [("event_type", Json.str "unknown_xyz")])] ∧
    Delivery.typed () ∉ marketOnMessage ⟨true, true, true, true⟩ unitMarketDecoders
        (some (.obj [("event_type", Json.str "unknown_xyz")])) ∧
    Delivery.typed () ∉ userOnMessage ⟨true, true, true, true⟩ unitUserDecoders
        (some (.obj [("event_type", Json.str "unknown_xyz")])) := by
  have h := unknown_discriminator_to_generic ⟨true, true, true, true⟩ unitMarketDecoders
    unitUserDecoders [("event_type", Json.str "unknown_xyz")] (by decide) (by decide)
  refine ⟨by decide, by decide, by decide, by decide, by decide, by decide, ?_, ?_,
    h.2.2.1 (), h.2.2.2 ()⟩
  · simpa using h.1
  · simpa using h.2.1

/-- C6 counterexample: a recognized `book` message that decodes
successfully, dispatched with no callbacks registered and verbose off,
fires no delivery path at all — not "exactly one". -/
theorem dispatch_no_sink_no_delivery :
    unitMarketDecoders.book (.obj [("event_type", Json.str "book")]) = some () ∧
    marketOnMessage ⟨false, false, false, false⟩ unitMarketDecoders
      (some (.obj [("event_type", Json.str "book")])) = [] :=
  ⟨rfl, rfl⟩

/-- C6 (amended): for a dict message with a recognized discriminator, at
most one delivery path fires, and exactly one whenever some sink is
enabled, with the precedence typed callback, then generic callback, then
verbose echo (with every sink disabled nothing fires); on decode failure
the raw payload is delivered to the generic callback when registered,
preceded by a verbose diagnostic line when verbose is on; dispatch is a
total function and never raises.  Stated for both channels. -/
theorem dispatch_delivery_precedence {α : Type} (cfg : CbCfg)
    (mdec : MarketDecoders α) (udec : UserDecoders α)
    (fields : List (String × Json)) (et : String)
    (het : isEventType (.obj fields) et = true) :
    (et ∈ ["book", "price_change", "tick_size_change", "last_trade_price"] →
      ((∀ m, marketDecoderFor mdec et (.obj fields) = some m →
          marketOnMessage cfg mdec (some (.obj fields)) =
            (if cfg.has_market_callback then [.typed m]
             else if cfg.has_message_callback then
               [.generic MARKET_CHANNEL (.obj fields)]
             else if cfg.verbose then [.echo]
             else [])) ∧
        (marketDecoderFor mdec et (.obj fields) = none →
          marketOnMessage cfg mdec (some (.obj fields)) =
            (if cfg.verbose then [.echo] else []) ++
              (if cfg.has_message_callback then
                [.generic MARKET_CHANNEL (.obj fields)] else [])))) ∧
    (et ∈ ["trade", "order"] →
      ((∀ m, userDecoderFor udec et (.obj fields) = some m →
          userOnMessage cfg udec (some (.obj fields)) =
            (if cfg.has_user_callback then [.typed m]
             else if cfg.has_message_callback then
               [.generic USER_CHANNEL (.obj fields)]
             else if cfg.verbose then [.echo]
             else [])) ∧
        (userDecoderFor udec et (.obj fields) = none →
          userOnMessage cfg udec (some (.obj fields)) =
            (if cfg.verbose then [.echo] else []) ++
              (if cfg.has_message_callback then
                [.generic USER_CHANNEL (.obj fields)] else [])))) := by
  have hne := fun n hn => isEventType_of_ne (.obj fields) et n het hn
  constructor
  · intro hmem
    simp only [List.mem_cons, List.mem_singleton, List.not_mem_nil, or_false] at hmem
    have key : marketOnMessage cfg mdec (some (.obj fields)) =
        typedBranch cfg cfg.has_market_callback MARKET_CHANNEL (.obj fields)
          (marketDecoderFor mdec et (.obj fields)) := by
      rcases hmem with h | h | h | h <;> subst h <;>
        simp [marketOnMessage, marketDecoderFor, het, hne, String.reduceEq]
    constructor
    · intro m hdec
      rw [key, hdec]
      rfl
    · intro hdec
      rw [key, hdec]
      rfl
  · intro hmem
    simp only [List.mem_cons, List.mem_singleton, List.not_mem_nil, or_false] at hmem
    have key : userOnMessage cfg udec (some (.obj fields)) =
        typedBranch cfg cfg.has_user_callback USER_CHANNEL (.obj fields)
          (userDecoderFor udec et (.obj fields)) := by
      rcases hmem with h | h <;> subst h <;>
        simp [userOnMessage, userDecoderFor, het, hne, String.reduceEq]
    constructor
    · intro m hdec
      rw [key, hdec]
      rfl
    · intro hdec
      rw [key, hdec]
      rfl

/-- C6 witness: a `book` event with the typed market callback and the
generic callback both registered invokes only the typed callback. -/
theorem dispatch_delivery_precedence_witness :
    isEventType (.obj [("event_type", Json.str "book")]) "book" = true ∧
    marketOnMessage ⟨true, true, true, false⟩ unitMarketDecoders
      (some (.obj [("event_type", Json.str "book")])) = [.typed ()] := by
  refine ⟨rfl, ?_⟩
  have h := ((dispatch_delivery_precedence (⟨true, true, true, false⟩ : CbCfg)
    unitMarketDecoders unitUserDecoders
    [("event_type", Json.str "book")] "book" rfl).1 (by simp)).1 () rfl
  simpa using h

/-! ## Supporting lemmas for the reconciliation claims -/

theorem charListLt_irrefl : ∀ l, charListLt l l = false
  | [] => rfl
  | _ :: as => by simp [charListLt, charListLt_irrefl as]

theorem charListLt_asymm : ∀ (a b), charListLt a b = true → charListLt b a = false
  | [], [], h => by simp [charListLt] at h
  | [], _ :: _, _ => rfl
  | _ :: _, [], h => by simp [charListLt] at h
  | x :: xs, y :: ys, h => by
    simp only [charListLt] at h ⊢
    by_cases h1 : x.toNat < y.toNat
    · have h2 : ¬ y.toNat < x.toNat := by omega
      simp [h1, h2]
    · by_cases h2 : y.toNat < x.toNat
      · simp [h1, h2] at h
      · simp [h1, h2] at h ⊢
        exact charListLt_asymm xs ys h

theorem charListLt_notLt_trans :
    ∀ (a b c), charListLt b a = false → charListLt c b = false → charListLt c a = false
  | [], _, [], _, _ => charListLt_irrefl []
  | [], [], _ :: _, _, _ => rfl
  | [], _ :: _, _ :: _, _, _ => rfl
  | _ :: _, [], _, h1, _ => by simp [charListLt] at h1
  | _ :: _, _ :: _, [], _, h2 => by simp [charListLt] at h2
  | x :: xs, y :: ys, z :: zs, h1, h2 => by
    simp only [charListLt] at h1 h2 ⊢
    by_cases hyx : y.toNat < x.toNat
    · simp [hyx] at h1
    · by_cases hzy : z.toNat < y.toNat
      · simp [hzy] at h2
      · by_cases hxy : x.toNat < y.toNat
        · have hzx : ¬ z.toNat < x.toNat := by omega
          have hxz : x.toNat < z.toNat := by omega
          simp [hzx, hxz]
        · simp [hyx, hxy] at h1
          by_cases hyz : y.toNat < z.toNat
          · have hzx : ¬ z.toNat < x.toNat := by omega
            have hxz : x.toNat < z.toNat := by omega
            simp [hzx, hxz]
          · simp [hzy, hyz] at h2
            have hzx : ¬ z.toNat < x.toNat := by omega
            have hxz : ¬ x.toNat < z.toNat := by omega
            simp [hzx, hxz]
            exact charListLt_notLt_trans xs ys zs h1 h2

theorem strLt_irrefl (a : String) : strLt a a = false := charListLt_irrefl _

theorem strLt_notLt_trans {a b c : String} (h1 : strLt b a = false)
    (h2 : strLt c b = false) : strLt c a = false :=
  charListLt_notLt_trans _ _ _ h1 h2

theorem pyMax_notLt_left (a b : String) : strLt (pyMax a b) a = false := by
  unfold pyMax
  by_cases h : strLt a b = true
  · rw [if_pos h]
    exact charListLt_asymm _ _ h
  · rw [if_neg h]
    exact strLt_irrefl a

theorem pyMax_notLt_right (a b : String) : strLt (pyMax a b) b = false := by
  unfold pyMax
  by_cases h : strLt a b = true
  · rw [if_pos h]
    exact strLt_irrefl b
  · rw [if_neg h]
    exact Bool.not_eq_true _ ▸ (Bool.of_not_eq_true h)

theorem pyMax_eq_or (a b : String) : pyMax a b = a ∨ pyMax a b = b := by
  unfold pyMax
  by_cases h : strLt a b = true
  · exact Or.inr (if_pos h)
  · exact Or.inl (if_neg h)

theorem foldl_pyMax_notLt :
    ∀ (l : List String) (b x : String), strLt b x = false →
      strLt (l.foldl pyMax b) x = false
  | [], _, _, h => h
  | y :: ys, b, x, h => by
    rw [List.foldl_cons]
    exact foldl_pyMax_notLt ys (pyMax b y) x
      (strLt_notLt_trans h (pyMax_notLt_left b y))

theorem foldl_pyMax_ge_mem :
    ∀ (l : List String) (b x : String), x ∈ l →
      strLt (l.foldl pyMax b) x = false
  | [], _, _, h => absurd h (List.not_mem_nil _)
  | y :: ys, b, x, h => by
    rw [List.foldl_cons]
    rcases List.mem_cons.1 h with rfl | hx
    · exact foldl_pyMax_notLt ys (pyMax b x) x (pyMax_notLt_right b x)
    · exact foldl_pyMax_ge_mem ys (pyMax b y) x hx

theorem foldl_pyMax_ge_init (l : List String) (b : String) :
    strLt (l.foldl pyMax b) b = false :=
  foldl_pyMax_notLt l b b (strLt_irrefl b)

theorem foldl_pyMax_mem : ∀ (l : List String) (b : String), l.foldl pyMax b ∈ b :: l
  | [], _ => by simp
  | y :: ys, b => by
    rw [List.foldl_cons]
    have h := foldl_pyMax_mem ys (pyMax b y)
    rcases List.mem_cons.1 h with he | he
    · rcases pyMax_eq_or b y with h2 | h2 <;> rw [he, h2] <;> simp
    · exact List.mem_cons_of_mem _ (List.mem_cons_of_mem _ he)

theorem foldl_append_maker_orders :
    ∀ (l : List Trade) (acc : List MakerOrder),
      l.foldl (fun acc t => acc ++ t.maker_orders) acc =
        acc ++ (l.map (·.maker_orders)).flatten
  | [], acc => by simp
  | t :: ts, acc => by
    rw [List.foldl_cons, foldl_append_maker_orders ts]
    simp

/-- The member list stored under a key in the grouping association list
(empty when the key is absent). -/
def groupOf : List ((String × String) × List Trade) → String × String → List Trade
  | [], _ => []
  | (k', g) :: rest, k => if k = k' then g else groupOf rest k

theorem groupOf_insertTrade (gs : List ((String × String) × List Trade)) (t : Trade)
    (k : String × String) :
    groupOf (insertTrade gs t) k =
      if k = tradeKey t then groupOf gs k ++ [t] else groupOf gs k := by
  induction gs with
  | nil => by_cases h : k = tradeKey t <;> simp [insertTrade, groupOf, h]
  | cons kg rest ih =>
    obtain ⟨k', g⟩ := kg
    by_cases h1 : k' = tradeKey t
    · by_cases h2 : k = k'
      · have h4 : k = tradeKey t := h2.trans h1
        simp [insertTrade, groupOf, h1, h2, h4]
      · have h4 : ¬ k = tradeKey t := fun h => h2 (h.trans h1.symm)
        simp [insertTrade, groupOf, h1, h2, h4]
    · by_cases h2 : k = k'
      · have h4 : ¬ k = tradeKey t := fun h => h1 (h2.symm.trans h)
        simp [insertTrade, groupOf, h1, h2, h4]
      · simp [insertTrade, groupOf, h1, h2, ih]

theorem groupOf_foldl_insertTrade :
    ∀ (l : List Trade) (acc : List ((String × String) × List Trade)) (k : String × String),
      groupOf (l.foldl insertTrade acc) k =
        groupOf acc k ++ l.filter (fun t => tradeKey t = k)
  | [], _, _ => by simp
  | t :: ts, acc, k => by
    rw [List.foldl_cons, groupOf_foldl_insertTrade ts, groupOf_insertTrade,
      List.filter_cons]
    by_cases h : tradeKey t = k
    · simp [h]
    · have h' : ¬ k = tradeKey t := fun he => h he.symm
      simp [h, h']

theorem groupOf_groupTrades (l : List Trade) (k : String × String) :
    groupOf (groupTrades l) k = l.filter (fun t => tradeKey t = k) := by
  have h := groupOf_foldl_insertTrade l [] k
  simpa [groupTrades, groupOf] using h

theorem mem_of_groupOf_ne_nil :
    ∀ (gs : List ((String × String) × List Trade)) (k : String × String),
      groupOf gs k ≠ [] → (k, groupOf gs k) ∈ gs
  | [], _, h => absurd rfl h
  | (k', g) :: rest, k, h => by
    by_cases h2 : k = k'
    · subst h2
      simp only [groupOf, if_pos rfl] at h ⊢
      exact List.mem_cons_self _ _
    · simp only [groupOf, if_neg h2] at h ⊢
      exact List.mem_cons_of_mem _ (mem_of_groupOf_ne_nil rest k h)

theorem insertTrade_keys (gs : List ((String × String) × List Trade)) (t : Trade) :
    (insertTrade gs t).map Prod.fst =
      if tradeKey t ∈ gs.map Prod.fst then gs.map Prod.fst
      else gs.map Prod.fst ++ [tradeKey t] := by
  induction gs with
  | nil => simp [insertTrade]
  | cons kg rest ih =>
    obtain ⟨k', g⟩ := kg
    by_cases h1 : k' = tradeKey t
    · simp [insertTrade, h1]
    · by_cases h2 : tradeKey t ∈ rest.map Prod.fst <;>
        simp [insertTrade, h1, h2, ih, Ne.symm h1]

theorem foldl_insertTrade_keys_nodup :
    ∀ (l : List Trade) (acc : List ((String × String) × List Trade)),
      (acc.map Prod.fst).Nodup → ((l.foldl insertTrade acc).map Prod.fst).Nodup
  | [], _, h => h
  | t :: ts, acc, h => by
    rw [List.foldl_cons]
    refine foldl_insertTrade_keys_nodup ts _ ?_
    rw [insertTrade_keys]
    by_cases h2 : tradeKey t ∈ acc.map Prod.fst
    · simpa [h2] using h
    · simp [h2, List.nodup_append, h]

theorem groupTrades_keys_nodup (l : List Trade) :
    ((groupTrades l).map Prod.fst).Nodup :=
  foldl_insertTrade_keys_nodup l [] (by simp)

theorem insertTrade_sound (gs : List ((String × String) × List Trade)) (t : Trade)
    (h : ∀ kg ∈ gs, kg.2 ≠ [] ∧ ∀ u ∈ kg.2, tradeKey u = kg.1) :
    ∀ kg ∈ insertTrade gs t, kg.2 ≠ [] ∧ ∀ u ∈ kg.2, tradeKey u = kg.1 := by
  induction gs with
  | nil =>
    intro kg hkg
    simp only [insertTrade, List.mem_singleton] at hkg
    subst hkg
    simp
  | cons kg0 rest ih =>
    obtain ⟨k', g⟩ := kg0
    intro kg hkg
    by_cases h1 : k' = tradeKey t
    · rw [insertTrade, if_pos h1] at hkg
      rcases List.mem_cons.1 hkg with rfl | hm
      · obtain ⟨hne, hkey⟩ := h (k', g) (List.mem_cons_self _ _)
        refine ⟨by simp, ?_⟩
        intro u hu
        rcases List.mem_append.1 hu with hg | hsing
        · exact hkey u hg
        · rw [List.mem_singleton.1 hsing, h1]
      · exact h kg (List.mem_cons_of_mem _ hm)
    · rw [insertTrade, if_neg h1] at hkg
      rcases List.mem_cons.1 hkg with rfl | hm
      · exact h (k', g) (List.mem_cons_self _ _)
      · exact ih (fun kg2 hkg2 => h kg2 (List.mem_cons_of_mem _ hkg2)) kg hm

theorem groupTrades_sound_aux :
    ∀ (l : List Trade) (acc : List ((String × String) × List Trade)),
      (∀ kg ∈ acc, kg.2 ≠ [] ∧ ∀ u ∈ kg.2, tradeKey u = kg.1) →
      ∀ kg ∈ l.foldl insertTrade acc, kg.2 ≠ [] ∧ ∀ u ∈ kg.2, tradeKey u = kg.1
  | [], _, h => h
  | t :: ts, acc, h =>
    groupTrades_sound_aux ts (insertTrade acc t) (insertTrade_sound acc t h)

theorem groupTrades_sound (l : List Trade) :
    ∀ kg ∈ groupTrades l, kg.2 ≠ [] ∧ ∀ u ∈ kg.2, tradeKey u = kg.1 :=
  groupTrades_sound_aux l [] (by simp)

theorem groupOf_of_mem_nodup :
    ∀ (gs : List ((String × String) × List Trade)), ((gs.map Prod.fst).Nodup) →
      ∀ (k : String × String) (g : List Trade), (k, g) ∈ gs → groupOf gs k = g
  | [], _, _, _, h => by simp at h
  | (k', g') :: rest, hnd, k, g, h => by
    rw [List.map_cons, List.nodup_cons] at hnd
    rcases List.mem_cons.1 h with he | hm
    · cases he
      simp [groupOf]
    · have hk : k ≠ k' := by
        intro he
        apply hnd.1
        have hmem : k ∈ rest.map Prod.fst := List.mem_map_of_mem Prod.fst hm
        rwa [he] at hmem
      rw [groupOf, if_neg hk]
      exact groupOf_of_mem_nodup rest hnd.2 k g hm

theorem groupResult_singleton (t : Trade) : groupResult [t] = .ok t := rfl

theorem groupResult_multi (a b : Trade) (l : List Trade) :
    groupResult (a :: b :: l) = mergeGroup (a :: b :: l) := rfl

theorem reconcileGroups_ok_iff :
    ∀ (gs : List ((String × String) × List Trade)) (out : List Trade),
      reconcileGroups gs = .ok out ↔
        List.Forall₂ (fun kg r => groupResult kg.2 = .ok r) gs out
  | [], out => by
    constructor
    · intro h
      simp only [reconcileGroups, Except.ok.injEq] at h
      subst h
      exact List.Forall₂.nil
    · intro h
      cases h
      rfl
  | (k, g) :: rest, out => by
    constructor
    · intro h
      rw [reconcileGroups] at h
      cases hg : groupResult g with
      | error e => rw [hg] at h; cases h
      | ok r =>
        rw [hg] at h
        cases ho : reconcileGroups rest with
        | error e => rw [ho] at h; cases h
        | ok out2 =>
          rw [ho] at h
          simp only [Except.map, Except.ok.injEq] at h
          subst h
          exact List.Forall₂.cons hg ((reconcileGroups_ok_iff rest out2).1 ho)
    · intro h
      cases h with
      | cons hr hrest =>
        rw [reconcileGroups, hr, (reconcileGroups_ok_iff rest _).2 hrest]
        rfl

theorem forall2_exists_of_mem {α β : Type} {R : α → β → Prop}
    {l1 : List α} {l2 : List β} (h : List.Forall₂ R l1 l2) :
    ∀ a ∈ l1, ∃ b ∈ l2, R a b := by
  induction h with
  | nil => intro a ha; simp at ha
  | cons hr hrest ih =>
    intro a ha
    rcases List.mem_cons.1 ha with rfl | hm
    · exact ⟨_, List.mem_cons_self _ _, hr⟩
    · obtain ⟨b, hb, hR⟩ := ih a hm
      exact ⟨b, List.mem_cons_of_mem _ hb, hR⟩

theorem mergeGroup_ok_spec (g : List Trade) (r : Trade) (h : mergeGroup g = .ok r) :
    ∃ base rest sizes, List.insertionSort bucketLE g = base :: rest ∧
      parseSizes (base :: rest) = .ok sizes ∧
      r.id = base.id ∧ r.taker_order_id = base.taker_order_id ∧
      r.market = base.market ∧ r.asset_id = base.asset_id ∧
      r.side = base.side ∧ r.size = pyStr (sizes.foldl pyAdd (fofInt 0)) ∧
      r.fee_rate_bps = base.fee_rate_bps ∧ r.price = base.price ∧
      r.status = base.status ∧ r.match_time = base.match_time ∧
      r.last_update = (rest.map (·.last_update)).foldl pyMax base.last_update ∧
      r.outcome = base.outcome ∧ r.maker_address = base.maker_address ∧
      r.owner = base.owner ∧ r.transaction_hash = base.transaction_hash ∧
      r.bucket_index = 0 ∧
      r.maker_orders = (base :: rest).foldl (fun acc t => acc ++ t.maker_orders) [] ∧
      r.type = base.type := by
  rw [mergeGroup] at h
  cases hs : List.insertionSort bucketLE g with
  | nil => rw [hs] at h; cases h
  | cons base rest =>
    rw [hs] at h
    simp only at h
    cases hp : parseSizes (base :: rest) with
    | error e => rw [hp] at h; simp only at h; cases h
    | ok sizes =>
      rw [hp] at h
      simp only at h
      cases h
      exact ⟨base, rest, sizes, rfl, hp, rfl, rfl, rfl, rfl, rfl, rfl, rfl, rfl,
        rfl, rfl, rfl, rfl, rfl, rfl, rfl, rfl, rfl, rfl⟩

theorem parseSizes_error_of_malformed :
    ∀ (l : List Trade), (∃ t ∈ l, py_float t.size = none) →
      ∃ e, parseSizes l = .error e
  | [], h => by simp at h
  | t :: ts, h => by
    rw [parseSizes]
    cases hf : py_float t.size with
    | none => exact ⟨⟨t.size⟩, rfl⟩
    | some q =>
      obtain ⟨u, hu, hnone⟩ := h
      rcases List.mem_cons.1 hu with rfl | hm
      · rw [hf] at hnone; cases hnone
      · obtain ⟨e, he⟩ := parseSizes_error_of_malformed ts ⟨u, hm, hnone⟩
        rw [he]
        exact ⟨e, rfl⟩

theorem mergeGroup_error_of_malformed (g : List Trade) (t : Trade) (ht : t ∈ g)
    (hbad : py_float t.size = none) : ∃ e, mergeGroup g = .error e := by
  have htm : t ∈ List.insertionSort bucketLE g :=
    (List.perm_insertionSort bucketLE g).mem_iff.2 ht
  rw [mergeGroup]
  cases hs : List.insertionSort bucketLE g with
  | nil => rw [hs] at htm; cases htm
  | cons base rest =>
    rw [hs] at htm
    simp only
    obtain ⟨e, he⟩ := parseSizes_error_of_malformed (base :: rest) ⟨t, htm, hbad⟩
    rw [he]
    exact ⟨e, rfl⟩

theorem groupResult_key (g : List Trade) (r : Trade) (k : String × String)
    (h : groupResult g = .ok r) (hne : g ≠ []) (hk : ∀ u ∈ g, tradeKey u = k) :
    tradeKey r = k := by
  cases g with
  | nil => exact absurd rfl hne
  | cons a tl =>
  cases tl with
  | nil =>
    rw [groupResult_singleton] at h
    injection h with h2
    rw [← h2]
    exact hk a (List.mem_singleton.2 rfl)
  | cons b l =>
    rw [groupResult_multi] at h
    obtain ⟨base, rest, sizes, hs, _, _, htk, _, _, _, _, _, _, _, hmt, _, _, _,
      _, _, _, _, _⟩ := mergeGroup_ok_spec _ _ h
    have hbase : base ∈ a :: b :: l := by
      have hperm := List.perm_insertionSort bucketLE (a :: b :: l)
      rw [hs] at hperm
      exact hperm.subset (List.mem_cons_self _ _)
    have hbk : tradeKey base = k := hk base hbase
    rw [tradeKey, htk, hmt]
    exact hbk

theorem forall2_map_keys :
    ∀ {gs : List ((String × String) × List Trade)} {out : List Trade},
      List.Forall₂ (fun kg r => groupResult kg.2 = .ok r) gs out →
      (∀ kg ∈ gs, kg.2 ≠ [] ∧ ∀ u ∈ kg.2, tradeKey u = kg.1) →
      out.map tradeKey = gs.map Prod.fst := by
  intro gs out h
  induction h with
  | nil => intro _; rfl
  | cons hr hrest ih =>
    intro hsound
    obtain ⟨hne, hkey⟩ := hsound _ (List.mem_cons_self _ _)
    rw [List.map_cons, List.map_cons,
      groupResult_key _ _ _ hr hne hkey,
      ih (fun kg hkg => hsound kg (List.mem_cons_of_mem _ hkg))]

theorem insertTrade_notmem (gs : List ((String × String) × List Trade)) (t : Trade)
    (h : tradeKey t ∉ gs.map Prod.fst) :
    insertTrade gs t = gs ++ [(tradeKey t, [t])] := by
  induction gs with
  | nil => rfl
  | cons kg rest ih =>
    obtain ⟨k', g⟩ := kg
    have h1 : ¬ k' = tradeKey t := by
      intro he
      exact h (by simp [he])
    simp only [insertTrade, if_neg h1, List.cons_append, List.cons.injEq, true_and]
    exact ih (fun hm => h (by simp [hm]))

theorem groupTrades_of_nodup_aux :
    ∀ (l : List Trade) (acc : List ((String × String) × List Trade)),
      ((acc.map Prod.fst ++ l.map tradeKey).Nodup) →
      l.foldl insertTrade acc = acc ++ l.map (fun t => (tradeKey t, [t]))
  | [], acc, _ => by simp
  | t :: ts, acc, h => by
    rw [List.foldl_cons]
    have hnotin : tradeKey t ∉ acc.map Prod.fst := by
      intro hm
      rw [List.nodup_append] at h
      exact h.2.2 hm (List.mem_cons_self _ _)
    rw [insertTrade_notmem acc t hnotin]
    rw [groupTrades_of_nodup_aux ts (acc ++ [(tradeKey t, [t])]) (by simpa using h)]
    simp

theorem groupTrades_of_nodup (l : List Trade) (h : (l.map tradeKey).Nodup) :
    groupTrades l = l.map (fun t => (tradeKey t, [t])) := by
  have h2 := groupTrades_of_nodup_aux l [] (by simpa using h)
  simpa [groupTrades] using h2

theorem reconcileGroups_singletons :
    ∀ (l : List Trade), reconcileGroups (l.map (fun t => (tradeKey t, [t]))) = .ok l
  | [] => rfl
  | t :: ts => by
    rw [List.map_cons, reconcileGroups, groupResult_singleton,
      reconcileGroups_singletons ts]
    rfl

theorem reconcile_ok_of_nodup (l : List Trade) (h : (l.map tradeKey).Nodup) :
    reconcile_trades l = .ok l := by
  rw [reconcile_trades, groupTrades_of_nodup l h, reconcileGroups_singletons]

/-- Keys in first-occurrence order: specification of insertion-ordered
grouping. -/
def firstOccurAux (seen : List (String × String)) :
    List (String × String) → List (String × String)
  | [] => []
  | k :: rest =>
    if k ∈ seen then firstOccurAux seen rest
    else k :: firstOccurAux (k :: seen) rest

theorem firstOccurAux_congr :
    ∀ (l : List (String × String)) (s1 s2), (∀ x, x ∈ s1 ↔ x ∈ s2) →
      firstOccurAux s1 l = firstOccurAux s2 l
  | [], _, _, _ => rfl
  | k :: rest, s1, s2, h => by
    by_cases hk : k ∈ s1
    · rw [firstOccurAux, if_pos hk, firstOccurAux, if_pos ((h k).1 hk),
        firstOccurAux_congr rest s1 s2 h]
    · rw [firstOccurAux, if_neg hk, firstOccurAux, if_neg (fun hm => hk ((h k).2 hm)),
        firstOccurAux_congr rest (k :: s1) (k :: s2) (by intro x; simp [h x])]

theorem foldl_insertTrade_keys_firstOccur :
    ∀ (l : List Trade) (acc : List ((String × String) × List Trade)),
      (l.foldl insertTrade acc).map Prod.fst =
        acc.map Prod.fst ++ firstOccurAux (acc.map Prod.fst) (l.map tradeKey)
  | [], acc => by simp [firstOccurAux]
  | t :: ts, acc => by
    rw [List.foldl_cons, List.map_cons,
      foldl_insertTrade_keys_firstOccur ts (insertTrade acc t), insertTrade_keys]
    by_cases h : tradeKey t ∈ acc.map Prod.fst
    · rw [if_pos h, firstOccurAux, if_pos h]
    · rw [if_neg h, firstOccurAux, if_neg h,
        firstOccurAux_congr (ts.map tradeKey) (acc.map Prod.fst ++ [tradeKey t])
          (tradeKey t :: acc.map Prod.fst) (by intro x; simp [or_comm])]
      simp

theorem groupTrades_keys_firstOccur (l : List Trade) :
    (groupTrades l).map Prod.fst = firstOccurAux [] (l.map tradeKey) := by
  have h := foldl_insertTrade_keys_firstOccur l []
  simpa [groupTrades] using h

theorem mem_firstOccurAux :
    ∀ (l : List (String × String)) (seen k),
      k ∈ firstOccurAux seen l ↔ (k ∈ l ∧ k ∉ seen)
  | [], seen, k => by simp [firstOccurAux]
  | k0 :: rest, seen, k => by
    by_cases h : k0 ∈ seen
    · rw [firstOccurAux, if_pos h, mem_firstOccurAux rest seen k]
      constructor
      · rintro ⟨hm, hn⟩
        exact ⟨List.mem_cons_of_mem _ hm, hn⟩
      · rintro ⟨hm, hn⟩
        rcases List.mem_cons.1 hm with rfl | hm2
        · exact absurd h hn
        · exact ⟨hm2, hn⟩
    · rw [firstOccurAux, if_neg h, List.mem_cons, mem_firstOccurAux rest (k0 :: seen) k]
      constructor
      · rintro (rfl | ⟨hm, hn⟩)
        · exact ⟨List.mem_cons_self _ _, h⟩
        · exact ⟨List.mem_cons_of_mem _ hm, fun hs => hn (List.mem_cons_of_mem _ hs)⟩
      · rintro ⟨hm, hn⟩
        by_cases he : k = k0
        · exact Or.inl he
        · right
          rcases List.mem_cons.1 hm with he2 | hm2
          · exact absurd he2 he
          · exact ⟨hm2, fun hs => (List.mem_cons.1 hs).elim he hn⟩

theorem groupResult_eq_merge (g : List Trade) (h : 2 ≤ g.length) :
    groupResult g = mergeGroup g := by
  cases g with
  | nil => simp at h
  | cons a tl =>
  cases tl with
  | nil => simp at h
  | cons b l => rfl

/-! ## Claims about trade reconciliation -/

/-- C3: reconciliation is idempotent.  On an error the second application
never runs (the Python call raises), modelled by `Except.bind`; on success
the output's keys are pairwise distinct, so the second pass sees only
singleton groups and passes everything through. -/
theorem reconcile_trades_idempotent (trades : List Trade) :
    Except.bind (reconcile_trades trades) reconcile_trades =
      reconcile_trades trades := by
  cases h : reconcile_trades trades with
  | error e => rfl
  | ok out =>
    have hf := (reconcileGroups_ok_iff (groupTrades trades) out).1 h
    have hkeys : out.map tradeKey = (groupTrades trades).map Prod.fst :=
      forall2_map_keys hf (groupTrades_sound trades)
    have hnd : (out.map tradeKey).Nodup := by
      rw [hkeys]
      exact groupTrades_keys_nodup trades
    show reconcile_trades out = Except.ok out
    exact reconcile_ok_of_nodup out hnd

/-- C2: every group of two or more trades sharing a key is merged into
exactly one output record: the base is a group member with minimal
`bucket_index` (the head of the stable ascending sort); `maker_orders` is
the concatenation over the sorted group; `status`, `id` and
`transaction_hash` (and the key fields) come from the base; `last_update`
is the maximum of the members' values under the code's string comparison;
`bucket_index` is reset to 0. -/
theorem reconcile_merged_group (trades out : List Trade) (k : String × String)
    (hout : reconcile_trades trades = .ok out)
    (hlen : 2 ≤ (trades.filter (fun t => tradeKey t = k)).length) :
    ∃ r ∈ out, tradeKey r = k ∧
      (∀ r2 ∈ out, tradeKey r2 = k → r2 = r) ∧
      ∃ base rest,
        List.insertionSort bucketLE (trades.filter (fun t => tradeKey t = k)) =
          base :: rest ∧
        base ∈ trades.filter (fun t => tradeKey t = k) ∧
        (∀ t ∈ trades.filter (fun t => tradeKey t = k),
          base.bucket_index ≤ t.bucket_index) ∧
        List.Sorted bucketLE (base :: rest) ∧
        (base :: rest).Perm (trades.filter (fun t => tradeKey t = k)) ∧
        r.maker_orders = ((base :: rest).map (·.maker_orders)).flatten ∧
        r.status = base.status ∧ r.id = base.id ∧
        r.transaction_hash = base.transaction_hash ∧
        r.taker_order_id = base.taker_order_id ∧ r.match_time = base.match_time ∧
        (∀ t ∈ trades.filter (fun t => tradeKey t = k),
          strLt r.last_update t.last_update = false) ∧
        (∃ t ∈ trades.filter (fun t => tradeKey t = k),
          r.last_update = t.last_update) ∧
        r.bucket_index = 0 := by
  have hg : groupOf (groupTrades trades) k = trades.filter (fun t => tradeKey t = k) :=
    groupOf_groupTrades trades k
  have hne : trades.filter (fun t => tradeKey t = k) ≠ [] := by
    intro he
    rw [he] at hlen
    simp at hlen
  have hmem : (k, trades.filter (fun t => tradeKey t = k)) ∈ groupTrades trades := by
    have h2 := mem_of_groupOf_ne_nil (groupTrades trades) k (by rw [hg]; exact hne)
    rwa [hg] at h2
  have hf := (reconcileGroups_ok_iff (groupTrades trades) out).1 hout
  obtain ⟨r, hrout, hres⟩ := forall2_exists_of_mem hf _ hmem
  have hres2 : mergeGroup (trades.filter (fun t => tradeKey t = k)) = .ok r := by
    rw [← groupResult_eq_merge _ hlen]
    exact hres
  obtain ⟨base, rest, sizes, hs, hp, hid, htko, hmkt, hasid, hside, hsz, hfee,
    hpr, hst, hmt, hlu, houtc, hmad, hown, htx, hbi, hmo, hty⟩ :=
    mergeGroup_ok_spec _ _ hres2
  have hperm : (base :: rest).Perm (trades.filter (fun t => tradeKey t = k)) := by
    have hp2 := List.perm_insertionSort bucketLE (trades.filter (fun t => tradeKey t = k))
    rwa [hs] at hp2
  have hsorted : List.Sorted bucketLE (base :: rest) := by
    have hs2 := List.sorted_insertionSort bucketLE (trades.filter (fun t => tradeKey t = k))
    rwa [hs] at hs2
  have hbase_mem : base ∈ trades.filter (fun t => tradeKey t = k) :=
    hperm.subset (List.mem_cons_self _ _)
  have hmin : ∀ t ∈ trades.filter (fun t => tradeKey t = k),
      base.bucket_index ≤ t.bucket_index := by
    intro t ht
    have ht2 : t ∈ base :: rest := hperm.mem_iff.2 ht
    rcases List.mem_cons.1 ht2 with rfl | ht3
    · exact le_refl _
    · exact (List.sorted_cons.1 hsorted).1 t ht3
  have hkmembers : ∀ u ∈ trades.filter (fun t => tradeKey t = k), tradeKey u = k := by
    intro u hu
    have h3 := (List.mem_filter.1 hu).2
    simpa using h3
  have hkey : tradeKey r = k :=
    groupResult_key _ r k ((groupResult_eq_merge _ hlen).trans hres2) hne hkmembers
  have hkeys : out.map tradeKey = (groupTrades trades).map Prod.fst :=
    forall2_map_keys hf (groupTrades_sound trades)
  have hnd : (out.map tradeKey).Nodup := by
    rw [hkeys]
    exact groupTrades_keys_nodup trades
  have huniq : ∀ r2 ∈ out, tradeKey r2 = k → r2 = r := by
    intro r2 hr2 hk2
    exact List.inj_on_of_nodup_map hnd hr2 hrout (hk2.trans hkey.symm)
  have hlu_ub : ∀ t ∈ trades.filter (fun t => tradeKey t = k),
      strLt r.last_update t.last_update = false := by
    intro t ht
    have ht2 : t ∈ base :: rest := hperm.mem_iff.2 ht
    rw [hlu]
    rcases List.mem_cons.1 ht2 with rfl | ht3
    · exact foldl_pyMax_ge_init _ _
    · exact foldl_pyMax_ge_mem _ _ _ (List.mem_map_of_mem _ ht3)
  have hlu_mem : ∃ t ∈ trades.filter (fun t => tradeKey t = k),
      r.last_update = t.last_update := by
    have hm := foldl_pyMax_mem (rest.map (·.last_update)) base.last_update
    rw [← hlu] at hm
    have hm2 : r.last_update ∈ (base :: rest).map (·.last_update) := by simpa using hm
    obtain ⟨t, ht, hteq⟩ := List.mem_map.1 hm2
    exact ⟨t, hperm.subset ht, hteq.symm⟩
  have hmo2 : r.maker_orders = ((base :: rest).map (·.maker_orders)).flatten := by
    rw [hmo, foldl_append_maker_orders]
    simp
  exact ⟨r, hrout, hkey, huniq, base, rest, hs, hbase_mem, hmin, hsorted, hperm,
    hmo2, hst, hid, htx, htko, hmt, hlu_ub, hlu_mem, hbi⟩

/-- Sample maker order for concrete runs. -/
def sampleMakerOrder (n : String) : MakerOrder :=
  { order_id := n, maker_address := "", owner := "", matched_amount := "0",
    fee_rate_bps := "0", price := "0", asset_id := "", outcome := "", side := "" }

/-- Sample trade builder for concrete runs. -/
def sampleTrade (i tko mt sz : String) (b : ℤ) (lu : String)
    (mos : List MakerOrder) : Trade :=
  { id := i, taker_order_id := tko, market := "m", asset_id := "a", side := "BUY",
    size := sz, fee_rate_bps := "0", price := "0.5", status := "MATCHED",
    match_time := mt, last_update := lu, outcome := "Yes", maker_address := "x",
    owner := "o", transaction_hash := "h" ++ i, bucket_index := b,
    maker_orders := mos, type := "TAKER" }

/-- Fragment with bucket 2 of the three-way sample group. -/
def w2 : Trade := sampleTrade "A" "k" "t" "1" 2 "90" [sampleMakerOrder "a"]

/-- Fragment with bucket 0 (the base) of the three-way sample group. -/
def w0 : Trade := sampleTrade "B" "k" "t" "1" 0 "100" [sampleMakerOrder "b"]

/-- Fragment with bucket 1 of the three-way sample group. -/
def w1 : Trade := sampleTrade "C" "k" "t" "1" 1 "250" [sampleMakerOrder "c"]

/-- The record `reconcile_trades` produces for `[w2, w0, w1]`: base `w0`,
sizes summed as floats to `"3.0"`, maker orders in bucket order, the
string-maximal `last_update` (`"90"` beats `"250"` lexicographically, as
in Python), bucket index 0. -/
def wMerged : Trade :=
  { id := "B", taker_order_id := "k", market := "m", asset_id := "a", side := "BUY",
    size := "3.0", fee_rate_bps := "0", price := "0.5", status := "MATCHED",
    match_time := "t", last_update := "90", outcome := "Yes", maker_address := "x",
    owner := "o", transaction_hash := "hB", bucket_index := 0,
    maker_orders := [sampleMakerOrder "b", sampleMakerOrder "c", sampleMakerOrder "a"],
    type := "TAKER" }

/-- C2 witness: the bucket-[2,0,1] group merges into the single record
based on the bucket-0 fragment with concatenated maker orders. -/
theorem reconcile_merged_group_witness :
    reconcile_trades [w2, w0, w1] = .ok [wMerged] ∧
    2 ≤ ([w2, w0, w1].filter (fun t => tradeKey t = ("k", "t"))).length ∧
    tradeKey wMerged = ("k", "t") ∧ wMerged.bucket_index = 0 := by
  refine ⟨rfl, by decide, ?_⟩
  obtain ⟨r, hr, hkey, _, _, _, _, _, _, _, _, _, _, _, _, _, _, _, _, hb0⟩ :=
    reconcile_merged_group [w2, w0, w1] [wMerged] ("k", "t") rfl (by decide)
  rw [List.mem_singleton] at hr
  subst hr
  exact ⟨hkey, hb0⟩

/-- C5: the empty input reconciles to the empty output, and a trade whose
key is shared by no other input trade is returned unchanged — the very
same record, original `bucket_index` included — and is the only output
record with its key. -/
theorem reconcile_empty_and_singleton (trades out : List Trade) (t : Trade)
    (hout : reconcile_trades trades = .ok out)
    (hsingle : trades.filter (fun u => tradeKey u = tradeKey t) = [t]) :
    reconcile_trades ([] : List Trade) = .ok ([] : List Trade) ∧
    t ∈ out ∧ (∀ r2 ∈ out, tradeKey r2 = tradeKey t → r2 = t) := by
  have hg : groupOf (groupTrades trades) (tradeKey t) = [t] := by
    rw [groupOf_groupTrades]
    exact hsingle
  have hmem : (tradeKey t, [t]) ∈ groupTrades trades := by
    have h2 := mem_of_groupOf_ne_nil (groupTrades trades) (tradeKey t)
      (by rw [hg]; exact List.cons_ne_nil t [])
    rwa [hg] at h2
  have hf := (reconcileGroups_ok_iff (groupTrades trades) out).1 hout
  obtain ⟨r, hrout, hres⟩ := forall2_exists_of_mem hf _ hmem
  rw [groupResult_singleton] at hres
  injection hres with h2
  subst h2
  have hkeys : out.map tradeKey = (groupTrades trades).map Prod.fst :=
    forall2_map_keys hf (groupTrades_sound trades)
  have hnd : (out.map tradeKey).Nodup := by
    rw [hkeys]
    exact groupTrades_keys_nodup trades
  refine ⟨rfl, hrout, ?_⟩
  intro r2 hr2 hk2
  exact List.inj_on_of_nodup_map hnd hr2 hrout hk2

/-- Lone trade with `bucket_index` 3, no siblings. -/
def lone3 : Trade := sampleTrade "L" "kk" "tt" "7" 3 "5" []

/-- C5 witness: the lone bucket-3 trade passes through unchanged. -/
theorem reconcile_empty_and_singleton_witness :
    reconcile_trades [lone3] = .ok [lone3] ∧ lone3.bucket_index = 3 ∧
    lone3 ∈ [lone3] ∧
    reconcile_trades ([] : List Trade) = .ok ([] : List Trade) := by
  have h := reconcile_empty_and_singleton [lone3] [lone3] lone3 rfl rfl
  exact ⟨rfl, rfl, h.2.1, h.1⟩

/-- C4 counterexample: a trade with the unparsable size `"abc"` that
forms a singleton group is passed through unchanged — its size field is
never parsed and no error is raised, so "for every input list containing
a trade whose size cannot be parsed ... fails" is false on the code. -/
theorem malformed_singleton_passthrough :
    py_float "abc" = none ∧
    reconcile_trades [sampleTrade "X" "k" "t" "abc" 3 "1" []] =
      .ok [sampleTrade "X" "k" "t" "abc" 3 "1" []] :=
  ⟨rfl, rfl⟩

/-- C4 (amended): size fields are parsed only while merging a group of
two or more members; whenever a trade with an unparsable size shares its
key with another input trade, the whole operation fails with the parse
error and returns no partial output. -/
theorem reconcile_error_of_malformed_in_group (trades : List Trade) (t : Trade)
    (ht : t ∈ trades) (hbad : py_float t.size = none)
    (hlen : 2 ≤ (trades.filter (fun u => tradeKey u = tradeKey t)).length) :
    ∃ e, reconcile_trades trades = .error e := by
  have hg : groupOf (groupTrades trades) (tradeKey t) =
      trades.filter (fun u => tradeKey u = tradeKey t) :=
    groupOf_groupTrades trades _
  have hne : trades.filter (fun u => tradeKey u = tradeKey t) ≠ [] := by
    intro he
    rw [he] at hlen
    simp at hlen
  have hmem : (tradeKey t, trades.filter (fun u => tradeKey u = tradeKey t)) ∈
      groupTrades trades := by
    have h2 := mem_of_groupOf_ne_nil (groupTrades trades) (tradeKey t)
      (by rw [hg]; exact hne)
    rwa [hg] at h2
  have htf : t ∈ trades.filter (fun u => tradeKey u = tradeKey t) :=
    List.mem_filter.2 ⟨ht, by simp⟩
  obtain ⟨e, he⟩ := mergeGroup_error_of_malformed _ t htf hbad
  cases hr : reconcile_trades trades with
  | error e2 => exact ⟨e2, rfl⟩
  | ok out =>
    exfalso
    have hf := (reconcileGroups_ok_iff (groupTrades trades) out).1 hr
    obtain ⟨r, _, hres⟩ := forall2_exists_of_mem hf _ hmem
    rw [groupResult_eq_merge _ hlen, he] at hres
    cases hres

/-- C4 witness: two same-key fragments, one with size `"abc"`, abort the
whole reconciliation. -/
theorem reconcile_error_of_malformed_in_group_witness :
    py_float "abc" = none ∧
    2 ≤ (([sampleTrade "Y" "k" "t" "abc" 0 "1" [],
      sampleTrade "Z" "k" "t" "1" 1 "1" []].filter
        (fun u => tradeKey u = tradeKey (sampleTrade "Y" "k" "t" "abc" 0 "1" []))).length) ∧
    (reconcile_trades [sampleTrade "Y" "k" "t" "abc" 0 "1" [],
      sampleTrade "Z" "k" "t" "1" 1 "1" []]).isOk = false := by
  refine ⟨rfl, by decide, ?_⟩
  obtain ⟨e, he⟩ := reconcile_error_of_malformed_in_group
    [sampleTrade "Y" "k" "t" "abc" 0 "1" [], sampleTrade "Z" "k" "t" "1" 1 "1" []]
    (sampleTrade "Y" "k" "t" "abc" 0 "1" []) (by simp) rfl (by decide)
  rw [he]
  rfl

/-- C1, code evaluated at the failing input: the code sums sizes in
binary floating point (`float()` then `str()`), not arbitrary-precision
decimal.  For a group with sizes `"0.1"` and `"0.2"` the merged size is
the binary64 artefact `"0.30000000000000004"`, not the exact decimal sum
`"0.3"`.  The spec's particular example survives by luck: `"1.5"`,
`"2.25"`, `"0.001"` merge to exactly `"3.751"` because the rounded double
happens to repr back to those digits. -/
theorem size_sum_is_binary_float :
    (reconcile_trades [sampleTrade "A" "k" "t" "0.1" 0 "1" [],
        sampleTrade "B" "k" "t" "0.2" 1 "1" []]).map (fun l => l.map (·.size)) =
      .ok ["0.30000000000000004"] ∧
    ("0.30000000000000004" : String) ≠ "0.3" ∧
    (reconcile_trades [sampleTrade "A" "k" "t" "1.5" 0 "1" [],
        sampleTrade "B" "k" "t" "2.25" 1 "1" [],
        sampleTrade "C" "k" "t" "0.001" 2 "1" []]).map (fun l => l.map (·.size)) =
      .ok ["3.751"] :=
  ⟨rfl, by decide, rfl⟩

/-- C10: reconciliation is a function of the input list; it emits exactly
one record per distinct `(taker_order_id, match_time)` key of the input,
and the output records appear in first-occurrence order of their keys
(Python dict insertion order). -/
theorem reconcile_output_key_order (trades out : List Trade)
    (hout : reconcile_trades trades = .ok out) :
    out.map tradeKey = firstOccurAux [] (trades.map tradeKey) ∧
    (out.map tradeKey).Nodup ∧
    (∀ k, k ∈ out.map tradeKey ↔ k ∈ trades.map tradeKey) := by
  have hf := (reconcileGroups_ok_iff (groupTrades trades) out).1 hout
  have hkeys : out.map tradeKey = (groupTrades trades).map Prod.fst :=
    forall2_map_keys hf (groupTrades_sound trades)
  have h1 : out.map tradeKey = firstOccurAux [] (trades.map tradeKey) := by
    rw [hkeys, groupTrades_keys_firstOccur]
  refine ⟨h1, ?_, ?_⟩
  · rw [hkeys]
    exact groupTrades_keys_nodup trades
  · intro k
    rw [h1, mem_firstOccurAux]
    simp

/-- C10 witness: the duplicate-key sample collapses to one record whose
key list is the first-occurrence key order of the input. -/
theorem reconcile_output_key_order_witness :
    reconcile_trades [w2, w0, w1] = .ok [wMerged] ∧
    [wMerged].map tradeKey = firstOccurAux [] ([w2, w0, w1].map tradeKey) ∧
    ([wMerged].map tradeKey).Nodup :=
  ⟨rfl, (reconcile_output_key_order [w2, w0, w1] [wMerged] rfl).1,
    (reconcile_output_key_order [w2, w0, w1] [wMerged] rfl).2.1⟩

end Polymarket
